import Mathlib

/-!
Verification of the pymake source-ordering engine (`pymake/pymake.py`).

Files are modelled as byte lists (`List Nat`), the filesystem as a partial
map from path strings to byte contents (`none` = the file cannot be opened).
Python string operations used by the code (`decode('ascii','replace')`,
`splitlines`, `strip`, `split`, `upper`, `lower`, `endswith`,
`os.path.basename`, `os.path.join`) are embedded over codepoint lists.

The dependency-graph ordering core (`dag.order_source_files`,
`dag.order_c_source_files`) is imported by `pymake.py` but its source file
`dag.py` is not part of this tree; those two functions are modelled from the
specification (sections 4.1-4.5) and each such definition is marked
`Modelled from the spec:` in its doc comment.
-/

/-- A filesystem: maps a path to the bytes of the file, or `none` when the
file cannot be opened. -/
abbrev FS : Type := String → Option (List Nat)

/-- Codepoints of a string literal, used to compare embedded Python text
against keywords such as `USE` or `ISO_C_BINDING`. -/
def cp (s : String) : List Nat := s.data.map Char.toNat

/-- Python whitespace bytes recognised by `str.strip()` / `str.split()`:
space, tab, LF, CR, VT, FF. -/
def isWsB (b : Nat) : Bool :=
  b == 32 || b == 9 || b == 10 || b == 13 || b == 11 || b == 12

/-- `bytes.decode('ascii', 'replace')`: ascii bytes kept, any byte outside
the ascii range replaced by U+FFFD (the replacement character); decoding is
total, never an error. -/
def decodePy (bytes : List Nat) : List Nat :=
  bytes.map (fun b => if b < 128 then b else 0xFFFD)

/-- Helper for `splitLinesPy`: accumulates the current (reversed) line. -/
def splitLinesAux : List Nat → List Nat → List (List Nat)
  | [], cur => [cur.reverse]
  | b :: rest, cur =>
    if b = 10 ∨ b = 13 then cur.reverse :: splitLinesAux rest []
    else splitLinesAux rest (b :: cur)

/-- `str.splitlines()`: split decoded text at LF/CR line boundaries.  (A
CRLF pair yields an interleaved empty line, which every consumer in this
development ignores, matching Python's behaviour on the statements the
scanner recognises.) -/
def splitLinesPy (l : List Nat) : List (List Nat) :=
  match l with
  | [] => []
  | _ => splitLinesAux l []

/-- `str.strip()`: remove leading and trailing whitespace. -/
def pyStrip (l : List Nat) : List Nat :=
  ((l.dropWhile isWsB).reverse.dropWhile isWsB).reverse

/-- Helper for `splitWs`: accumulates the current (reversed) token. -/
def splitWsAux : List Nat → List Nat → List (List Nat)
  | [], cur => if cur = [] then [] else [cur.reverse]
  | b :: rest, cur =>
    if isWsB b then
      if cur = [] then splitWsAux rest [] else cur.reverse :: splitWsAux rest []
    else splitWsAux rest (b :: cur)

/-- `str.split()` with no argument: whitespace-delimited tokens, empty
tokens dropped. -/
def splitWs (l : List Nat) : List (List Nat) := splitWsAux l []

/-- `str.upper()` on decoded text (ascii letters; all other codepoints,
including U+FFFD, are unchanged). -/
def upperB (b : Nat) : Nat := if 97 ≤ b ∧ b ≤ 122 then b - 32 else b

/-- Uppercase a whole token. -/
def upperTok (t : List Nat) : List Nat := t.map upperB

/-- `str.lower()` on path characters (ascii). -/
def lowerB (b : Nat) : Nat := if 65 ≤ b ∧ b ≤ 90 then b + 32 else b

/-- `s.split(',')[0]`: the part of a token before the first comma. -/
def commaHead (t : List Nat) : List Nat := t.takeWhile (fun b => b != 44)

/-- The whitespace-delimited tokens of a stripped line
(`line.strip().split()`). -/
def lineToks (line : List Nat) : List (List Nat) := splitWs (pyStrip line)

/-- `os.path.basename`: the part of the path after the last slash. -/
def pyBasename (p : String) : String :=
  ⟨(p.data.reverse.takeWhile (fun c => c != '/')).reverse⟩

/-- The message printed by `get_iso_c` when a source file cannot be
opened. -/
def reportMsg (p : String) : String :=
  "get_f_nodelist: could not open " ++ pyBasename p

/-- The per-file line scan of `get_iso_c`: for each line, if the first
token uppercases to `USE` the code reads `linelist[1]`, which raises
`IndexError` (modelled as `Except.error ()`) when the line has a single
token; otherwise the module name is the second token up to the first
comma, uppercased, and `ISO_C_BINDING` returns `true` immediately. -/
def scanIsoLines : List (List Nat) → Except Unit Bool
  | [] => .ok false
  | line :: rest =>
    match lineToks line with
    | [] => scanIsoLines rest
    | t0 :: ts =>
      if upperTok t0 = cp "USE" then
        match ts with
        | [] => .error ()
        | t1 :: _ =>
          if upperTok (commaHead t1) = cp "ISO_C_BINDING" then .ok true
          else scanIsoLines rest
      else scanIsoLines rest

/-- `get_iso_c(srcfiles)` from `pymake.py`: scans the files in order; an
unopenable file is reported and skipped; a file whose scan finds
`USE ISO_C_BINDING` returns `True` at once; a bare `USE` line propagates
the `IndexError`.  The result carries the value together with the list of
could-not-open reports printed along the way. -/
def get_iso_c (fs : FS) : List String → Except Unit (Bool × List String)
  | [] => .ok (false, [])
  | srcfile :: rest =>
    match fs srcfile with
    | none =>
      match get_iso_c fs rest with
      | .ok (b, reps) => .ok (b, reportMsg srcfile :: reps)
      | .error e => .error e
    | some bytes =>
      match scanIsoLines (splitLinesPy (decodePy bytes)) with
      | .error e => .error e
      | .ok true => .ok (true, [])
      | .ok false => get_iso_c fs rest

/-- `out_of_date(srcfile, objfile)` from `pymake.py`, over a
modification-time map (`none` = the path does not exist).  When the object
file exists, `os.path.getmtime(srcfile)` raises if the source file is
missing (modelled as `Except.error ()`). -/
def out_of_date (mt : String → Option Int) (srcfile objfile : String) :
    Except Unit Bool :=
  match mt objfile with
  | none => .ok true
  | some t1 =>
    match mt srcfile with
    | none => .error ()
    | some t2 => .ok (decide ¬ (t1 > t2))

/-- Modelled from the spec: `dag.py` (not in this tree) supplies the Unit
Scanner.  Per section 4.1, a module-definition line is recognised by its
first token uppercasing to `MODULE` followed by the module name. -/
def provOfLine (line : List Nat) : Option (List Nat) :=
  match lineToks line with
  | t0 :: t1 :: _ => if upperTok t0 = cp "MODULE" then some (upperTok t1) else none
  | _ => none

/-- Modelled from the spec: per section 4.1, a use/import line is
recognised by its first token uppercasing to `USE`; the module name is the
second token up to the first comma (an `only` qualifier list does not
matter), case-folded. -/
def useOfLine (line : List Nat) : Option (List Nat) :=
  match lineToks line with
  | t0 :: t1 :: _ =>
    if upperTok t0 = cp "USE" then some (upperTok (commaHead t1)) else none
  | _ => none

/-- Modelled from the spec: the fixed, curated set of intrinsic/standard
module names that are never resolved against the Registry (the platform's
binding-interop module). -/
def intrinsicMods : List (List Nat) := [cp "ISO_C_BINDING"]

/-- Modelled from the spec: `dag.py`'s Unit Scanner (section 4.1).  An
unopenable file provides and requires nothing; otherwise the lines are read
once, decoded leniently, and scanned for module-definition and use lines.
The required set excludes intrinsic modules and self-references (modules
the unit itself provides). -/
def scanUnit (fs : FS) (p : String) : List (List Nat) × List (List Nat) :=
  match fs p with
  | none => ([], [])
  | some bytes =>
    let lines := splitLinesPy (decodePy bytes)
    let provs := lines.filterMap provOfLine
    let reqs := (lines.filterMap useOfLine).filter
      (fun m => ¬ m ∈ intrinsicMods ∧ ¬ m ∈ provs)
    (provs, reqs)

/-- Helper for `resolveMod`: index of the first unit providing the module,
counting from `i`. -/
def resolveAux (m : List Nat) : List (List (List Nat) × List (List Nat)) → Nat → Option Nat
  | [], _ => none
  | u :: rest, i => if m ∈ u.1 then some i else resolveAux m rest (i + 1)

/-- Modelled from the spec: the Module Registry (section 4.2) binds each
module name to its first-discovered defining unit; `resolveMod` is
`resolve(name)`. -/
def resolveMod (units : List (List (List Nat) × List (List Nat))) (m : List Nat) :
    Option Nat :=
  resolveAux m units 0

/-- Modelled from the spec: the Dependency Graph (section 4.3).  The edges
of unit `i`: for each required module resolved by the Registry to unit `j`
with `j ≠ i`, an edge `i → j` (`j` must be compiled before `i`). -/
def depsOfUnits (units : List (List (List Nat) × List (List Nat))) (i : Nat) :
    List Nat :=
  match units.get? i with
  | none => []
  | some u => (u.2.filterMap (resolveMod units)).filter (fun j => j ≠ i)

/-- One closure step of the reachable set of the orderer: add every
still-remaining dependency of a member. -/
def depsStep (deps : Nat → List Nat) (rem S : List Nat) : List Nat :=
  ((S.flatMap deps).filter (fun y => y ∈ rem)) ∪ S

/-- The set of units reachable from `u` along dependency edges inside the
remaining set `rem` (iterated to a fixpoint). -/
def reachL (deps : Nat → List Nat) (rem : List Nat) (u : Nat) : List Nat :=
  (depsStep deps rem)^[rem.length + 1] [u]

/-- Size of the remaining reachable set of `u`; a unit whose dependencies
are all already emitted has size 1. -/
def lenR (deps : Nat → List Nat) (rem : List Nat) (u : Nat) : Nat :=
  (reachL deps rem u).length

/-- Minimum of a list of naturals (0 for the empty list). -/
def minNat : List Nat → Nat
  | [] => 0
  | [a] => a
  | a :: rest => min a (minNat rest)

/-- Modelled from the spec: the orderer's choice at one step (section 4.3).
Among remaining units, the first (in discovery order) whose remaining
reachable set is smallest: with no cycle among the remaining units this is
exactly the first unit with no unresolved dependency (Kahn's algorithm
with ties broken by discovery order); when the sort is stuck it is the
first member of a strongly-connected component with no unresolved
dependency outside itself, whose members then form one collapsed ordering
unit. -/
def pickU (deps : Nat → List Nat) (rem : List Nat) : Option Nat :=
  rem.find? (fun u => lenR deps rem u == minNat (rem.map (lenR deps rem)))

/-- Modelled from the spec: the Orderer loop (section 4.3), fuelled by the
number of remaining units (each step removes at least one unit).  The
chosen unit's remaining reachable set — a single ready unit, or a collapsed
cycle — is emitted as a block, internally in discovery order (`rem` is kept
in discovery order and the block is extracted with `filter`). -/
def orderLoopF (deps : Nat → List Nat) : Nat → List Nat → List Nat
  | 0, _ => []
  | fuel + 1, rem =>
    match pickU deps rem with
    | none => []
    | some u0 =>
      rem.filter (fun x => x ∈ reachL deps rem u0) ++
        orderLoopF deps fuel (rem.filter (fun x => ¬ x ∈ reachL deps rem u0))

/-- Modelled from the spec: the deterministic topological ordering of the
unit indices in `rem`. -/
def orderLoop (deps : Nat → List Nat) (rem : List Nat) : List Nat :=
  orderLoopF deps rem.length rem

/-- The dependency-edge function of the scanned fortran units: unit indices
are positions in `paths` (discovery order). -/
def fortranDeps (fs : FS) (paths : List String) : Nat → List Nat :=
  depsOfUnits (paths.map (fun p => scanUnit fs p))

/-- The ordered unit indices produced for the module-language bucket. -/
def orderIndices (fs : FS) (paths : List String) : List Nat :=
  orderLoop (fortranDeps fs paths) (List.range paths.length)

/-- Modelled from the spec: `dag.order_source_files` — the ordered
module-language file list (sections 4.1-4.3). -/
def order_source_files (fs : FS) (paths : List String) : List String :=
  (orderIndices fs paths).map (fun i => paths.getD i "")

/-- Modelled from the spec: `dag.order_c_source_files` — the
secondary-language orderer (section 4.4) preserves discovery order and
builds no cross-file graph. -/
def order_c_source_files (_fs : FS) (paths : List String) : List String :=
  paths

/-- `os.path.join` over POSIX paths. -/
def joinPath (d name : String) : String := d ++ "/" ++ name

/-- The file-collection loop of `get_ordered_srcfiles`: each `os.walk`
entry is a (directory, filename) pair; when `include_subdir` is false,
entries whose directory is not the source directory itself are skipped. -/
def walkTemplist (srcdir : String) (include_subdir : Bool) :
    List (String × String) → List String
  | [] => []
  | (p, name) :: rest =>
    if ¬ include_subdir ∧ p ≠ srcdir then walkTemplist srcdir include_subdir rest
    else joinPath p name :: walkTemplist srcdir include_subdir rest

/-- `f.lower().endswith(ext)` for the fortran extensions
`.f`, `.f90`, `.for`, `.fpp`. -/
def isFortranFile (f : String) : Bool :=
  let lf := (cp f).map lowerB
  (cp ".f").isSuffixOf lf || (cp ".f90").isSuffixOf lf ||
    (cp ".for").isSuffixOf lf || (cp ".fpp").isSuffixOf lf

/-- `f.lower().endswith(ext)` for the C/C++ extensions `.c`, `.cpp`. -/
def isCFile (f : String) : Bool :=
  let lf := (cp f).map lowerB
  (cp ".c").isSuffixOf lf || (cp ".cpp").isSuffixOf lf

/-- The classification loop of `get_ordered_srcfiles`: fortran files into
the first bucket, otherwise C/C++ files into the second, every other file
dropped. -/
def classifySrc : List String → List String × List String
  | [] => ([], [])
  | f :: rest =>
    let sc := classifySrc rest
    if isFortranFile f then (f :: sc.1, sc.2)
    else if isCFile f then (sc.1, f :: sc.2)
    else sc

/-- `get_ordered_srcfiles(srcdir_temp, include_subdir)` from `pymake.py`,
over the `os.walk` result (a list of (directory, filename) pairs in walk
order): collect and bucket the files, then order each nonempty bucket and
concatenate, fortran first. -/
def get_ordered_srcfiles (fs : FS) (srcdir : String)
    (walk : List (String × String)) (include_subdir : Bool) : List String :=
  let templist := walkTemplist srcdir include_subdir walk
  let buckets := classifySrc templist
  (if 0 < buckets.1.length then order_source_files fs buckets.1 else []) ++
    (if 0 < buckets.2.length then order_c_source_files fs buckets.2 else [])

/-- Bytes of an ascii string, used to build concrete filesystems in
examples. -/
def bytesOf (s : String) : List Nat := s.data.map Char.toNat

/-- A dependency edge restricted to the remaining units: `b` is a
dependency of `a` and is still remaining. -/
def edgeIn (deps : Nat → List Nat) (rem : List Nat) (a b : Nat) : Prop :=
  b ∈ deps a ∧ b ∈ rem

/-- Reachability along dependency edges inside the remaining set. -/
def ReachIn (deps : Nat → List Nat) (rem : List Nat) : Nat → Nat → Prop :=
  Relation.ReflTransGen (edgeIn deps rem)

/-- Reachability along dependency edges of the whole graph; with an edge
`u → v` present, "some cycle involves both `u` and `v`" is exactly
"`u` is reachable from `v`". -/
def ReachDep (deps : Nat → List Nat) : Nat → Nat → Prop :=
  Relation.ReflTransGen (fun a b => b ∈ deps a)

/-- Following the claim's words (not the code): a line whose first
whitespace-delimited token equals `USE` case-insensitively and whose named
module — the second token up to the first comma, case-folded — is
`ISO_C_BINDING`. -/
def isoLineB (line : List Nat) : Bool :=
  match lineToks line with
  | t0 :: t1 :: _ =>
    upperTok t0 == cp "USE" && upperTok (commaHead t1) == cp "ISO_C_BINDING"
  | _ => false

/-- Following the claim's words: the file at `p` contains a
`USE ISO_C_BINDING` line. -/
def isoFileB (fs : FS) (p : String) : Bool :=
  match fs p with
  | none => false
  | some bytes => (splitLinesPy (decodePy bytes)).any isoLineB

/-- Following the claim's words (not the code): some file of the set
contains a `USE ISO_C_BINDING` line. -/
def hasIsoCLine (fs : FS) (srcfiles : List String) : Bool :=
  srcfiles.any (isoFileB fs)

/-- Example fixture: a two-file fortran project; `a.f90` defines module
`m1` and `b.f90` uses it, giving the dependency edge `1 → 0`. -/
def exFS1 : FS := fun p =>
  if p = "a.f90" then some (bytesOf "module m1\nend\n")
  else if p = "b.f90" then some (bytesOf "use m1\n")
  else none

/-- Example fixture: a filesystem agreeing with `exFS1` on `a.f90` but
holding no other file at all. -/
def exFS2 : FS := fun p =>
  if p = "a.f90" then some (bytesOf "module m1\nend\n") else none

/-- Example fixture: a file whose first line is the bare token `use` (the
`IndexError` input) followed by a genuine `use iso_c_binding` line. -/
def exFS3 : FS := fun p =>
  if p = "a.f90" then some (bytesOf "use\nuse iso_c_binding\n") else none

/-- Example fixture: a single file that uses `ISO_C_BINDING` with an
`only` qualifier list. -/
def exFS4 : FS := fun p =>
  if p = "a.f90" then some (bytesOf "use iso_c_binding, only: c_int\n")
  else none

/-- Example fixture: a modification-time map where source and object file
have equal timestamps. -/
def exMT : String → Option Int := fun p =>
  if p = "a.f90" then some 5 else if p = "a.o" then some 5 else none

/-! ### Lemmas about the closure step -/

lemma mem_depsStep {deps : Nat → List Nat} {rem S : List Nat} {y : Nat} :
    y ∈ depsStep deps rem S ↔ (∃ x ∈ S, y ∈ deps x ∧ y ∈ rem) ∨ y ∈ S := by
  simp only [depsStep, List.mem_union_iff, List.mem_filter, List.mem_flatMap,
    decide_eq_true_eq]
  constructor
  · rintro (⟨⟨x, hx, hd⟩, hr⟩ | hS)
    · exact Or.inl ⟨x, hx, hd, hr⟩
    · exact Or.inr hS
  · rintro (⟨x, hx, hd, hr⟩ | hS)
    · exact Or.inl ⟨⟨x, hx, hd⟩, hr⟩
    · exact Or.inr hS

lemma subset_depsStep {deps : Nat → List Nat} {rem S : List Nat} :
    S ⊆ depsStep deps rem S := by
  intro y hy
  exact mem_depsStep.mpr (Or.inr hy)

lemma depsStep_nodup {deps : Nat → List Nat} {rem S : List Nat}
    (h : S.Nodup) : (depsStep deps rem S).Nodup :=
  List.Nodup.union _ h

lemma depsStep_subset_cons {deps : Nat → List Nat} {rem S : List Nat} {u : Nat}
    (hS : S ⊆ u :: rem) : depsStep deps rem S ⊆ u :: rem := by
  intro y hy
  rcases mem_depsStep.mp hy with ⟨x, _, _, hyrem⟩ | hyS
  · exact List.mem_cons_of_mem u hyrem
  · exact hS hyS

lemma insert_grow (a : Nat) (T : List Nat) :
    T.insert a = T ∨ T.length < (T.insert a).length := by
  by_cases h : a ∈ T
  · exact Or.inl (List.insert_of_mem h)
  · right
    rw [List.insert_of_not_mem h]
    simp

lemma union_grow (news S : List Nat) :
    news ∪ S = S ∨ S.length < (news ∪ S).length := by
  induction news with
  | nil => exact Or.inl (List.nil_union S)
  | cons a tl ih =>
    rw [List.cons_union]
    rcases ih with h | h
    · rw [h]
      exact insert_grow a S
    · rcases insert_grow a (tl ∪ S) with h2 | h2
      · rw [h2]
        exact Or.inr h
      · exact Or.inr (h.trans h2)

lemma depsStep_grow (deps : Nat → List Nat) (rem S : List Nat) :
    depsStep deps rem S = S ∨ S.length < (depsStep deps rem S).length :=
  union_grow _ S

/-! ### The reachable set: basic properties and the fixpoint -/

lemma iterate_subset_succ (deps : Nat → List Nat) (rem S : List Nat) (k : Nat) :
    (depsStep deps rem)^[k] S ⊆ (depsStep deps rem)^[k + 1] S := by
  rw [Function.iterate_succ_apply']
  exact subset_depsStep

lemma subset_iterate (deps : Nat → List Nat) (rem S : List Nat) (k : Nat) :
    S ⊆ (depsStep deps rem)^[k] S := by
  induction k with
  | zero => simp
  | succ k ih => exact ih.trans (iterate_subset_succ deps rem S k)

lemma iterate_nodup (deps : Nat → List Nat) (rem S : List Nat) (k : Nat)
    (h : S.Nodup) : ((depsStep deps rem)^[k] S).Nodup := by
  induction k with
  | zero => simpa
  | succ k ih =>
    rw [Function.iterate_succ_apply']
    exact depsStep_nodup ih

lemma iterate_subset_cons (deps : Nat → List Nat) (rem : List Nat) (u k : Nat) :
    (depsStep deps rem)^[k] [u] ⊆ u :: rem := by
  induction k with
  | zero =>
    intro y hy
    simp only [Function.iterate_zero, id, List.mem_singleton] at hy
    simp [hy]
  | succ k ih =>
    rw [Function.iterate_succ_apply']
    exact depsStep_subset_cons ih

lemma mem_reachL_self (deps : Nat → List Nat) (rem : List Nat) (u : Nat) :
    u ∈ reachL deps rem u :=
  subset_iterate deps rem [u] (rem.length + 1) (List.mem_singleton_self u)

lemma reachL_nodup (deps : Nat → List Nat) (rem : List Nat) (u : Nat) :
    (reachL deps rem u).Nodup :=
  iterate_nodup deps rem [u] (rem.length + 1) (List.nodup_singleton u)

lemma reachL_subset_cons (deps : Nat → List Nat) (rem : List Nat) (u : Nat) :
    reachL deps rem u ⊆ u :: rem :=
  iterate_subset_cons deps rem u (rem.length + 1)

lemma reachL_subset (deps : Nat → List Nat) (rem : List Nat) (u : Nat)
    (hu : u ∈ rem) : reachL deps rem u ⊆ rem := by
  intro y hy
  rcases List.mem_cons.mp (reachL_subset_cons deps rem u hy) with h | h
  · exact h ▸ hu
  · exact h

lemma iterate_length_le (deps : Nat → List Nat) (rem : List Nat) (u k : Nat) :
    ((depsStep deps rem)^[k] [u]).length ≤ rem.length + 1 := by
  have hnd := iterate_nodup deps rem [u] k (List.nodup_singleton u)
  have hsub := iterate_subset_cons deps rem u k
  have := (List.Nodup.subperm hnd hsub).length_le
  simpa using this

lemma iterate_grow_of_ne (deps : Nat → List Nat) (rem : List Nat) (u : Nat)
    (k : Nat) (h : ∀ j < k, (depsStep deps rem)^[j + 1] [u] ≠ (depsStep deps rem)^[j] [u]) :
    k + 1 ≤ ((depsStep deps rem)^[k] [u]).length := by
  induction k with
  | zero => simp
  | succ k ih =>
    have hk : k + 1 ≤ ((depsStep deps rem)^[k] [u]).length :=
      ih (fun j hj => h j (Nat.lt_succ_of_lt hj))
    have hne := h k (Nat.lt_succ_self k)
    rcases depsStep_grow deps rem ((depsStep deps rem)^[k] [u]) with heq | hlt
    · rw [Function.iterate_succ_apply'] at hne
      exact absurd heq hne
    · rw [Function.iterate_succ_apply']
      omega

lemma reachL_fixed (deps : Nat → List Nat) (rem : List Nat) (u : Nat) :
    depsStep deps rem (reachL deps rem u) = reachL deps rem u := by
  have hex : ∃ j < rem.length + 1,
      (depsStep deps rem)^[j + 1] [u] = (depsStep deps rem)^[j] [u] := by
    by_contra hcon
    push_neg at hcon
    have := iterate_grow_of_ne deps rem u (rem.length + 1) hcon
    have hle := iterate_length_le deps rem u (rem.length + 1)
    omega
  rcases hex with ⟨j, hj, hfix⟩
  have hstab : ∀ m, j ≤ m → (depsStep deps rem)^[m] [u] = (depsStep deps rem)^[j] [u] := by
    intro m hm
    induction m, hm using Nat.le_induction with
    | base => rfl
    | succ m _ ih =>
      have hit := Function.iterate_succ_apply' (depsStep deps rem) j ([u])
      rw [Function.iterate_succ_apply', ih, ← hit, hfix]
  have h1 : reachL deps rem u = (depsStep deps rem)^[j] [u] :=
    hstab (rem.length + 1) (Nat.le_of_lt hj)
  have hit := Function.iterate_succ_apply' (depsStep deps rem) j ([u])
  show depsStep deps rem (reachL deps rem u) = reachL deps rem u
  rw [h1, ← hit, hfix]

lemma reachL_closed {deps : Nat → List Nat} {rem : List Nat} {u x y : Nat}
    (hx : x ∈ reachL deps rem u) (hy : y ∈ deps x) (hyr : y ∈ rem) :
    y ∈ reachL deps rem u := by
  have : y ∈ depsStep deps rem (reachL deps rem u) :=
    mem_depsStep.mpr (Or.inl ⟨x, hx, hy, hyr⟩)
  rwa [reachL_fixed] at this

/-! ### Reachability: soundness and transitivity of the reachable set -/

lemma iterate_sound (deps : Nat → List Nat) (rem : List Nat) (u : Nat) :
    ∀ k y, y ∈ (depsStep deps rem)^[k] [u] → ReachIn deps rem u y := by
  intro k
  induction k with
  | zero =>
    intro y hy
    simp only [Function.iterate_zero, id, List.mem_singleton] at hy
    exact hy ▸ Relation.ReflTransGen.refl
  | succ k ih =>
    intro y hy
    rw [Function.iterate_succ_apply'] at hy
    rcases mem_depsStep.mp hy with ⟨x, hx, hd, hr⟩ | hS
    · exact Relation.ReflTransGen.tail (ih x hx) ⟨hd, hr⟩
    · exact ih y hS

lemma reachL_sound {deps : Nat → List Nat} {rem : List Nat} {u y : Nat}
    (hy : y ∈ reachL deps rem u) : ReachIn deps rem u y :=
  iterate_sound deps rem u (rem.length + 1) y hy

lemma reachL_trans_subset {deps : Nat → List Nat} {rem : List Nat} {u x : Nat}
    (hx : x ∈ reachL deps rem u) : reachL deps rem x ⊆ reachL deps rem u := by
  have hstep : ∀ k, (depsStep deps rem)^[k] [x] ⊆ reachL deps rem u := by
    intro k
    induction k with
    | zero =>
      intro y hy
      simp only [Function.iterate_zero, id, List.mem_singleton] at hy
      exact hy ▸ hx
    | succ k ih =>
      intro y hy
      rw [Function.iterate_succ_apply'] at hy
      rcases mem_depsStep.mp hy with ⟨z, hz, hd, hr⟩ | hS
      · exact reachL_closed (ih hz) hd hr
      · exact ih hS
  exact hstep (rem.length + 1)

/-! ### The argmin choice `pickU` -/

lemma minNat_mem : ∀ {l : List Nat}, l ≠ [] → minNat l ∈ l
  | [], h => absurd rfl h
  | [a], _ => by simp [minNat]
  | a :: b :: rest, _ => by
    have ih := minNat_mem (l := b :: rest) (by simp)
    show min a (minNat (b :: rest)) ∈ a :: b :: rest
    rcases Nat.le_total a (minNat (b :: rest)) with h | h
    · rw [Nat.min_eq_left h]
      simp
    · rw [Nat.min_eq_right h]
      exact List.mem_cons_of_mem a ih

lemma minNat_le : ∀ {l : List Nat} {a : Nat}, a ∈ l → minNat l ≤ a
  | [], a, h => absurd h (List.not_mem_nil a)
  | [b], a, h => by
    rw [List.mem_singleton] at h
    simp [minNat, h]
  | b :: c :: rest, a, h => by
    show min b (minNat (c :: rest)) ≤ a
    rcases List.mem_cons.mp h with rfl | h2
    · exact Nat.min_le_left _ _
    · exact (Nat.min_le_right _ _).trans (minNat_le h2)

lemma pickU_eq_none {deps : Nat → List Nat} {rem : List Nat}
    (h : pickU deps rem = none) : rem = [] := by
  cases hrem : rem with
  | nil => rfl
  | cons a tl =>
    exfalso
    have hne : rem ≠ [] := by simp [hrem]
    have hmin : minNat (rem.map (lenR deps rem)) ∈ rem.map (lenR deps rem) :=
      minNat_mem (by simpa using hne)
    rcases List.mem_map.mp hmin with ⟨u, hu, hlen⟩
    have : rem.find? (fun u => lenR deps rem u == minNat (rem.map (lenR deps rem))) = none := h
    have hnot := List.find?_eq_none.mp this u hu
    simp only [beq_iff_eq] at hnot
    exact hnot hlen

lemma pickU_mem {deps : Nat → List Nat} {rem : List Nat} {u0 : Nat}
    (h : pickU deps rem = some u0) : u0 ∈ rem :=
  List.mem_of_find?_eq_some h

lemma pickU_min {deps : Nat → List Nat} {rem : List Nat} {u0 : Nat}
    (h : pickU deps rem = some u0) :
    ∀ x ∈ rem, lenR deps rem u0 ≤ lenR deps rem x := by
  intro x hx
  have hp := List.find?_some h
  simp only [beq_iff_eq] at hp
  rw [hp]
  exact minNat_le (List.mem_map_of_mem (lenR deps rem) hx)

lemma reachL_eq_of_pick {deps : Nat → List Nat} {rem : List Nat} {u0 x : Nat}
    (h : pickU deps rem = some u0) (hx : x ∈ reachL deps rem u0) :
    ∀ y, y ∈ reachL deps rem x ↔ y ∈ reachL deps rem u0 := by
  have hxrem : x ∈ rem := reachL_subset deps rem u0 (pickU_mem h) hx
  have hsub : reachL deps rem x ⊆ reachL deps rem u0 := reachL_trans_subset hx
  have hsp := List.Nodup.subperm (reachL_nodup deps rem x) hsub
  have hlen : (reachL deps rem u0).length ≤ (reachL deps rem x).length :=
    pickU_min h x hxrem
  have hperm := hsp.perm_of_length_le hlen
  exact fun y => hperm.mem_iff

/-! ### The orderer loop -/

lemma length_filter_lt {p : Nat → Bool} {l : List Nat} {x : Nat}
    (hx : x ∈ l) (hpx : p x = false) : (l.filter p).length < l.length := by
  induction l with
  | nil => exact absurd hx (List.not_mem_nil x)
  | cons a tl ih =>
    rcases List.mem_cons.mp hx with rfl | hmem
    · rw [List.filter_cons, hpx]
      have := List.length_filter_le p tl
      simpa using Nat.lt_succ_of_le this
    · rw [List.filter_cons]
      cases hpa : p a
      · simpa using Nat.lt_succ_of_lt (ih hmem)
      · simpa using Nat.succ_lt_succ (ih hmem)

lemma block_filter_lt {deps : Nat → List Nat} {rem : List Nat} {u0 : Nat}
    (h : pickU deps rem = some u0) :
    (rem.filter (fun x => ¬ x ∈ reachL deps rem u0)).length < rem.length := by
  have hu0 : u0 ∈ rem := pickU_mem h
  have hself : u0 ∈ reachL deps rem u0 := mem_reachL_self deps rem u0
  exact length_filter_lt hu0 (by simpa using hself)

lemma ReachIn_mono {deps : Nat → List Nat} {rem rem' : List Nat}
    (hsub : rem' ⊆ rem) {a b : Nat} (h : ReachIn deps rem' a b) :
    ReachIn deps rem a b :=
  Relation.ReflTransGen.mono (fun _ _ hab => ⟨hab.1, hsub hab.2⟩) h

lemma orderLoopF_mem {deps : Nat → List Nat} :
    ∀ {fuel : Nat} {rem : List Nat}, rem.length ≤ fuel →
      ∀ x, x ∈ orderLoopF deps fuel rem ↔ x ∈ rem := by
  intro fuel
  induction fuel with
  | zero =>
    intro rem hlen x
    rcases List.eq_nil_of_length_eq_zero (Nat.le_zero.mp hlen) with rfl
    simp [orderLoopF]
  | succ fuel ih =>
    intro rem hlen x
    show x ∈ orderLoopF deps (fuel + 1) rem ↔ x ∈ rem
    rw [orderLoopF]
    cases hpick : pickU deps rem with
    | none =>
      rcases pickU_eq_none hpick with rfl
      simp
    | some u0 =>
      have hlen' : (rem.filter (fun x => ¬ x ∈ reachL deps rem u0)).length ≤ fuel :=
        Nat.le_of_lt_succ (Nat.lt_of_lt_of_le (block_filter_lt hpick) hlen)
      constructor
      · intro hx
        rcases List.mem_append.mp hx with hB | hrest
        · exact (List.mem_filter.mp hB).1
        · exact (List.mem_filter.mp ((ih hlen' x).mp hrest)).1
      · intro hm
        by_cases hR : x ∈ reachL deps rem u0
        · exact List.mem_append.mpr
            (Or.inl (List.mem_filter.mpr ⟨hm, by simpa using hR⟩))
        · exact List.mem_append.mpr
            (Or.inr ((ih hlen' x).mpr (List.mem_filter.mpr ⟨hm, by simpa using hR⟩)))

lemma orderLoopF_nodup {deps : Nat → List Nat} :
    ∀ {fuel : Nat} {rem : List Nat}, rem.length ≤ fuel → rem.Nodup →
      (orderLoopF deps fuel rem).Nodup := by
  intro fuel
  induction fuel with
  | zero =>
    intro rem _ _
    simp [orderLoopF]
  | succ fuel ih =>
    intro rem hlen hnd
    show (orderLoopF deps (fuel + 1) rem).Nodup
    rw [orderLoopF]
    cases hpick : pickU deps rem with
    | none => simp
    | some u0 =>
      have hlen' := Nat.le_of_lt_succ (Nat.lt_of_lt_of_le (block_filter_lt hpick) hlen)
      refine List.Nodup.append (hnd.filter _) (ih hlen' (hnd.filter _)) ?_
      intro x hxB hxR
      rw [orderLoopF_mem hlen'] at hxR
      have h1 := (List.mem_filter.mp hxB).2
      have h2 := (List.mem_filter.mp hxR).2
      simp only [decide_eq_true_eq] at h1
      simp only [decide_eq_true_eq] at h2
      exact h2 h1

lemma orderLoopF_dep_split {deps : Nat → List Nat} :
    ∀ {fuel : Nat} {rem : List Nat}, rem.length ≤ fuel → ∀ {u v : Nat},
      v ∈ deps u → u ∈ rem → v ∈ rem → ¬ ReachIn deps rem v u →
      ∃ l1 l2, orderLoopF deps fuel rem = l1 ++ v :: l2 ∧ u ∈ l2 := by
  intro fuel
  induction fuel with
  | zero =>
    intro rem hlen u v _ hu _ _
    rcases List.eq_nil_of_length_eq_zero (Nat.le_zero.mp hlen) with rfl
    exact absurd hu (List.not_mem_nil u)
  | succ fuel ih =>
    intro rem hlen u v hedge hu hv hnc
    rw [orderLoopF]
    cases hpick : pickU deps rem with
    | none =>
      rcases pickU_eq_none hpick with rfl
      exact absurd hu (List.not_mem_nil u)
    | some u0 =>
      have hlen' : (rem.filter (fun x => ¬ x ∈ reachL deps rem u0)).length ≤ fuel :=
        Nat.le_of_lt_succ (Nat.lt_of_lt_of_le (block_filter_lt hpick) hlen)
      by_cases hvR : v ∈ reachL deps rem u0
      · by_cases huR : u ∈ reachL deps rem u0
        · exfalso
          have hvu : u ∈ reachL deps rem v := (reachL_eq_of_pick hpick hvR u).mpr huR
          exact hnc (reachL_sound hvu)
        · have hvB : v ∈ rem.filter (fun x => x ∈ reachL deps rem u0) :=
            List.mem_filter.mpr ⟨hv, by simpa using hvR⟩
          rcases List.append_of_mem hvB with ⟨s, t, hBst⟩
          have hu' : u ∈ rem.filter (fun x => ¬ x ∈ reachL deps rem u0) :=
            List.mem_filter.mpr ⟨hu, by simpa using huR⟩
          have hurec : u ∈ orderLoopF deps fuel
              (rem.filter (fun x => ¬ x ∈ reachL deps rem u0)) :=
            (orderLoopF_mem hlen' u).mpr hu'
          refine ⟨s, t ++ orderLoopF deps fuel
            (rem.filter (fun x => ¬ x ∈ reachL deps rem u0)), ?_, ?_⟩
          · show rem.filter (fun x => x ∈ reachL deps rem u0) ++
                orderLoopF deps fuel (rem.filter (fun x => ¬ x ∈ reachL deps rem u0)) =
              s ++ v :: (t ++ orderLoopF deps fuel
                (rem.filter (fun x => ¬ x ∈ reachL deps rem u0)))
            rw [hBst]
            simp
          · exact List.mem_append.mpr (Or.inr hurec)
      · have huR : ¬ u ∈ reachL deps rem u0 := fun huR => hvR (reachL_closed huR hedge hv)
        have hu' : u ∈ rem.filter (fun x => ¬ x ∈ reachL deps rem u0) :=
          List.mem_filter.mpr ⟨hu, by simpa using huR⟩
        have hv' : v ∈ rem.filter (fun x => ¬ x ∈ reachL deps rem u0) :=
          List.mem_filter.mpr ⟨hv, by simpa using hvR⟩
        have hnc' : ¬ ReachIn deps (rem.filter (fun x => ¬ x ∈ reachL deps rem u0)) v u :=
          fun h => hnc (ReachIn_mono (List.filter_subset' rem) h)
        rcases ih hlen' hedge hu' hv' hnc' with ⟨l1, l2, heq, hul2⟩
        refine ⟨rem.filter (fun x => x ∈ reachL deps rem u0) ++ l1, l2, ?_, hul2⟩
        show rem.filter (fun x => x ∈ reachL deps rem u0) ++
            orderLoopF deps fuel (rem.filter (fun x => ¬ x ∈ reachL deps rem u0)) =
          rem.filter (fun x => x ∈ reachL deps rem u0) ++ l1 ++ v :: l2
        rw [heq]
        simp

/-! ### Bounds on the constructed dependency edges -/

lemma resolveAux_lt {m : List Nat} :
    ∀ {l : List (List (List Nat) × List (List Nat))} {i j : Nat},
      resolveAux m l i = some j → j < i + l.length := by
  intro l
  induction l with
  | nil => intro i j h; simp [resolveAux] at h
  | cons u rest ih =>
    intro i j h
    rw [resolveAux] at h
    by_cases hm : m ∈ u.1
    · rw [if_pos hm] at h
      cases h
      simp
    · rw [if_neg hm] at h
      have := ih h
      simp only [List.length_cons]
      omega

lemma depsOfUnits_lt {units : List (List (List Nat) × List (List Nat))}
    {i j : Nat} (h : j ∈ depsOfUnits units i) :
    i < units.length ∧ j < units.length := by
  rw [depsOfUnits] at h
  cases hget : units.get? i with
  | none => rw [hget] at h; exact absurd h (List.not_mem_nil j)
  | some u =>
    rw [hget] at h
    have hi : i < units.length := List.get?_eq_some.mp hget |>.choose
    refine ⟨hi, ?_⟩
    have hmem := List.mem_filter.mp h |>.1
    rcases List.mem_filterMap.mp hmem with ⟨m, _, hres⟩
    have := resolveAux_lt (m := m) hres
    simpa using this

lemma fortranDeps_lt {fs : FS} {paths : List String} {i j : Nat}
    (h : j ∈ fortranDeps fs paths i) :
    i < paths.length ∧ j < paths.length := by
  have := @depsOfUnits_lt (paths.map (fun p => scanUnit fs p)) i j h
  simpa using this

/-! ### Claim C1: dependency satisfaction -/

/-- C1: for every edge U→V present in the constructed dependency graph
(unit U requires a module that unit V provides), when no cycle involves
both U and V — with the edge present this is exactly: U is not reachable
from V along dependency edges — unit U appears strictly after unit V in
the ordered list returned by the ordering operation, both at the level of
unit indices and in the returned file list. -/
theorem claim_C1_dependency_satisfaction (fs : FS) (paths : List String)
    (u v : Nat) (hedge : v ∈ fortranDeps fs paths u)
    (hnc : ¬ ReachDep (fortranDeps fs paths) v u) :
    (∃ l1 l2, orderIndices fs paths = l1 ++ v :: l2 ∧ u ∈ l2) ∧
      (∃ m1 m2, order_source_files fs paths =
        m1 ++ paths.getD v "" :: m2 ∧ paths.getD u "" ∈ m2) := by
  have hb := fortranDeps_lt hedge
  have hu : u ∈ List.range paths.length := List.mem_range.mpr hb.1
  have hv : v ∈ List.range paths.length := List.mem_range.mpr hb.2
  have hnc' : ¬ ReachIn (fortranDeps fs paths) (List.range paths.length) v u :=
    fun h => hnc (Relation.ReflTransGen.mono (fun _ _ hab => hab.1) h)
  have hsplit := orderLoopF_dep_split
    (le_refl (List.range paths.length).length) hedge hu hv hnc'
  rcases hsplit with ⟨l1, l2, heq, hul2⟩
  have heqI : orderIndices fs paths = l1 ++ v :: l2 := heq
  refine ⟨⟨l1, l2, heqI, hul2⟩, ?_⟩
  refine ⟨l1.map (fun i => paths.getD i ""),
    l2.map (fun i => paths.getD i ""), ?_, ?_⟩
  · show (orderIndices fs paths).map (fun i => paths.getD i "") = _
    rw [heqI]
    simp
  · exact List.mem_map_of_mem _ hul2

/-- Witness for C1 at a concrete input: in `exFS1` the edge `1 → 0`
(`b.f90` requires module `m1` of `a.f90`) lies on no cycle, and `b.f90`
is ordered strictly after `a.f90`. -/
theorem claim_C1_dependency_satisfaction_witness :
    (∃ l1 l2, orderIndices exFS1 ["a.f90", "b.f90"] = l1 ++ 0 :: l2 ∧ 1 ∈ l2) ∧
      (∃ m1 m2, order_source_files exFS1 ["a.f90", "b.f90"] =
        m1 ++ "a.f90" :: m2 ∧ "b.f90" ∈ m2) :=
  claim_C1_dependency_satisfaction exFS1 ["a.f90", "b.f90"] 1 0
    (by decide)
    (fun h => by
      rcases h.cases_head with h0 | ⟨c, hc, _⟩
      · exact absurd h0 (by decide)
      · have hnil : fortranDeps exFS1 ["a.f90", "b.f90"] 0 = [] := by decide
        rw [hnil] at hc
        exact absurd hc (List.not_mem_nil c))

/-! ### Claims C2, C3, C6, C7: determinism, concatenation, empty buckets,
frame -/

/-- C2: for a fixed file set and fixed file contents (two filesystems that
agree on every path, and the same walk result), running the ordering twice
yields byte-identical ordered lists. -/
theorem claim_C2_determinism (fs1 fs2 : FS) (srcdir : String)
    (walk : List (String × String)) (include_subdir : Bool)
    (hfs : ∀ p, fs1 p = fs2 p) :
    get_ordered_srcfiles fs1 srcdir walk include_subdir =
      get_ordered_srcfiles fs2 srcdir walk include_subdir := by
  have h : fs1 = fs2 := funext hfs
  rw [h]

/-- Witness for C2 at a concrete input: two runs over `exFS1` agree. -/
theorem claim_C2_determinism_witness :
    get_ordered_srcfiles exFS1 "." [(".", "a.f90"), (".", "b.f90")] false =
      get_ordered_srcfiles exFS1 "." [(".", "a.f90"), (".", "b.f90")] false :=
  claim_C2_determinism exFS1 exFS1 "." [(".", "a.f90"), (".", "b.f90")] false
    (fun _ => rfl)

lemma order_source_files_nil (fs : FS) : order_source_files fs [] = [] := rfl

lemma order_c_source_files_nil (fs : FS) : order_c_source_files fs [] = [] := rfl

lemma get_ordered_srcfiles_eq_append (fs : FS) (srcdir : String)
    (walk : List (String × String)) (include_subdir : Bool) :
    get_ordered_srcfiles fs srcdir walk include_subdir =
      order_source_files fs (classifySrc (walkTemplist srcdir include_subdir walk)).1 ++
        order_c_source_files fs (classifySrc (walkTemplist srcdir include_subdir walk)).2 := by
  unfold get_ordered_srcfiles
  dsimp only
  by_cases h1 : 0 < (classifySrc (walkTemplist srcdir include_subdir walk)).1.length
  · rw [if_pos h1]
    by_cases h2 : 0 < (classifySrc (walkTemplist srcdir include_subdir walk)).2.length
    · rw [if_pos h2]
    · rw [if_neg h2]
      have : (classifySrc (walkTemplist srcdir include_subdir walk)).2 = [] :=
        List.eq_nil_of_length_eq_zero (by omega)
      rw [this, order_c_source_files_nil]
  · rw [if_neg h1]
    have hnil : (classifySrc (walkTemplist srcdir include_subdir walk)).1 = [] :=
      List.eq_nil_of_length_eq_zero (by omega)
    rw [hnil, order_source_files_nil, List.nil_append]
    by_cases h2 : 0 < (classifySrc (walkTemplist srcdir include_subdir walk)).2.length
    · rw [if_pos h2]
      simp
    · rw [if_neg h2]
      have : (classifySrc (walkTemplist srcdir include_subdir walk)).2 = [] :=
        List.eq_nil_of_length_eq_zero (by omega)
      rw [this, order_c_source_files_nil]
      simp

/-- C3: the combined output equals the ordered module-language (fortran)
bucket followed by the ordered secondary-language (C/C++) bucket — fortran
units always come first in the concatenation. -/
theorem claim_C3_concatenation (fs : FS) (srcdir : String)
    (walk : List (String × String)) (include_subdir : Bool) :
    get_ordered_srcfiles fs srcdir walk include_subdir =
      order_source_files fs (classifySrc (walkTemplist srcdir include_subdir walk)).1 ++
        order_c_source_files fs (classifySrc (walkTemplist srcdir include_subdir walk)).2 :=
  get_ordered_srcfiles_eq_append fs srcdir walk include_subdir

/-- C6: an empty language bucket is not an error and contributes an empty
ordered sub-sequence: with no fortran files the output is just the ordered
C/C++ bucket, with no C/C++ files it is just the ordered fortran bucket,
and with both buckets empty the output is the empty list. -/
theorem claim_C6_empty_buckets (fs : FS) (srcdir : String)
    (walk : List (String × String)) (include_subdir : Bool) :
    ((classifySrc (walkTemplist srcdir include_subdir walk)).1 = [] →
      get_ordered_srcfiles fs srcdir walk include_subdir =
        order_c_source_files fs (classifySrc (walkTemplist srcdir include_subdir walk)).2) ∧
    ((classifySrc (walkTemplist srcdir include_subdir walk)).2 = [] →
      get_ordered_srcfiles fs srcdir walk include_subdir =
        order_source_files fs (classifySrc (walkTemplist srcdir include_subdir walk)).1) ∧
    ((classifySrc (walkTemplist srcdir include_subdir walk)).1 = [] →
      (classifySrc (walkTemplist srcdir include_subdir walk)).2 = [] →
      get_ordered_srcfiles fs srcdir walk include_subdir = []) := by
  refine ⟨?_, ?_, ?_⟩
  · intro h1
    rw [get_ordered_srcfiles_eq_append, h1, order_source_files_nil, List.nil_append]
  · intro h2
    rw [get_ordered_srcfiles_eq_append, h2, order_c_source_files_nil, List.append_nil]
  · intro h1 h2
    rw [get_ordered_srcfiles_eq_append, h1, h2, order_source_files_nil,
      order_c_source_files_nil, List.nil_append]

/-- Witness for C6 at concrete inputs: a walk with only a C file (empty
fortran bucket), a walk with only fortran files (empty C bucket), and a
walk with no source files at all. -/
theorem claim_C6_empty_buckets_witness :
    get_ordered_srcfiles exFS1 "." [(".", "m.c")] false =
      order_c_source_files exFS1 (classifySrc (walkTemplist "." false [(".", "m.c")])).2 ∧
    get_ordered_srcfiles exFS1 "." [(".", "a.f90"), (".", "b.f90")] false =
      order_source_files exFS1
        (classifySrc (walkTemplist "." false [(".", "a.f90"), (".", "b.f90")])).1 ∧
    get_ordered_srcfiles exFS1 "." [(".", "readme.txt")] false = [] :=
  ⟨(claim_C6_empty_buckets exFS1 "." [(".", "m.c")] false).1 (by decide),
   (claim_C6_empty_buckets exFS1 "." [(".", "a.f90"), (".", "b.f90")] false).2.1 (by decide),
   (claim_C6_empty_buckets exFS1 "." [(".", "readme.txt")] false).2.2 (by decide) (by decide)⟩

lemma scanUnit_congr {fs fs' : FS} {p : String} (h : fs p = fs' p) :
    scanUnit fs p = scanUnit fs' p := by
  unfold scanUnit
  rw [h]

/-- C7: the ordering core's input is the already-bucketed path lists and
it reads only the files it is given: two filesystems agreeing on the given
paths (however much they differ elsewhere — no traversal, no extension
filtering, no other state) produce identical orderings, for both the
module-language and the secondary-language orderer. -/
theorem claim_C7_frame :
    (∀ (fs fs' : FS) (paths : List String), (∀ p ∈ paths, fs p = fs' p) →
      order_source_files fs paths = order_source_files fs' paths) ∧
    (∀ (fs fs' : FS) (paths : List String), (∀ p ∈ paths, fs p = fs' p) →
      order_c_source_files fs paths = order_c_source_files fs' paths) := by
  constructor
  · intro fs fs' paths h
    have hunits : paths.map (fun p => scanUnit fs p) =
        paths.map (fun p => scanUnit fs' p) :=
      List.map_congr_left (fun p hp => scanUnit_congr (h p hp))
    unfold order_source_files orderIndices orderLoop fortranDeps
    rw [hunits]
  · intro fs fs' paths _
    rfl

/-- Witness for C7 at a concrete input: `exFS1` and `exFS2` differ on
`b.f90` but agree on the listed files, and order them identically. -/
theorem claim_C7_frame_witness :
    order_source_files exFS1 ["a.f90"] = order_source_files exFS2 ["a.f90"] ∧
      order_c_source_files exFS1 ["x.c"] = order_c_source_files exFS2 ["x.c"] :=
  ⟨claim_C7_frame.1 exFS1 exFS2 ["a.f90"] (by decide),
   claim_C7_frame.2 exFS1 exFS2 ["x.c"] (by decide)⟩

/-! ### Claims C8 and C9: the bare-USE IndexError and out_of_date -/

/-- C8: for a readable input file containing a line whose stripped content
is the single token `use` with no module name after it, `get_iso_c`
raises `IndexError` (reading `linelist[1]`, modelled `Except.error ()`)
instead of returning a boolean. -/
theorem claim_C8_bare_use_raises :
    get_iso_c (fun p => if p = "a.f" then some (bytesOf "use\n") else none)
      ["a.f"] = .error () := rfl

/-- C9: `out_of_date srcfile objfile` (when the source file has a
modification time at all, which `os.path.getmtime` needs) returns `True`
exactly when the object file does not exist or its modification time is
not strictly greater than the source file's; in particular equal
modification times classify the source file as out of date. -/
theorem claim_C9_out_of_date (mt : String → Option Int)
    (srcfile objfile : String) (t2 : Int) (hsrc : mt srcfile = some t2) :
    (out_of_date mt srcfile objfile = .ok true ↔
      mt objfile = none ∨ ∃ t1, mt objfile = some t1 ∧ t1 ≤ t2) ∧
    (mt objfile = some t2 → out_of_date mt srcfile objfile = .ok true) := by
  constructor
  · cases hobj : mt objfile with
    | none => simp [out_of_date, hobj]
    | some t1 =>
      simp only [out_of_date, hobj, hsrc, Except.ok.injEq, decide_eq_true_eq]
      constructor
      · intro h
        exact Or.inr ⟨t1, rfl, by omega⟩
      · rintro (h | ⟨t1', ht1', hle⟩)
        · exact absurd h (Option.some_ne_none t1)
        · injection ht1' with ht1'
          omega
  · intro hobj
    simp only [out_of_date, hobj, hsrc, Except.ok.injEq, decide_eq_true_eq]
    omega

/-- Witness for C9 at a concrete input: with equal timestamps (`exMT`),
`out_of_date` returns `True`, and the iff holds. -/
theorem claim_C9_out_of_date_witness :
    (out_of_date exMT "a.f90" "a.o" = .ok true ↔
      exMT "a.o" = none ∨ ∃ t1, exMT "a.o" = some t1 ∧ t1 ≤ 5) ∧
    (exMT "a.o" = some 5 → out_of_date exMT "a.f90" "a.o" = .ok true) :=
  claim_C9_out_of_date exMT "a.f90" "a.o" 5 (by decide)

/-! ### Claim C4: unreadable and undecodable files are never fatal -/

lemma decodePy_idem (bytes : List Nat) : decodePy (decodePy bytes) = decodePy bytes := by
  unfold decodePy
  rw [List.map_map]
  refine List.map_congr_left ?_
  intro b _
  by_cases h : b < 128
  · simp [h]
  · simp [h]

lemma get_iso_c_decode_invariant (fs : FS) :
    ∀ files, get_iso_c (fun p => (fs p).map decodePy) files = get_iso_c fs files := by
  intro files
  induction files with
  | nil => rfl
  | cons p rest ih =>
    show get_iso_c (fun p => (fs p).map decodePy) (p :: rest) = get_iso_c fs (p :: rest)
    rw [get_iso_c, get_iso_c]
    cases hfs : fs p with
    | none =>
      simp only [hfs, Option.map_none']
      rw [ih]
    | some bytes =>
      simp only [hfs, Option.map_some']
      rw [decodePy_idem]
      cases scanIsoLines (splitLinesPy (decodePy bytes)) with
      | error e => rfl
      | ok b => cases b <;> simp [ih]

lemma get_iso_c_skip_unreadable (fs : FS) (pre : List String) (nm : String)
    (rest : List String) (h : fs nm = none) :
    Except.map Prod.fst (get_iso_c fs (pre ++ nm :: rest)) =
      Except.map Prod.fst (get_iso_c fs (pre ++ rest)) := by
  induction pre with
  | nil =>
    simp only [List.nil_append]
    rw [get_iso_c, h]
    cases hrec : get_iso_c fs rest with
    | error e => rfl
    | ok p => rfl
  | cons q pre' ih =>
    simp only [List.cons_append]
    rw [get_iso_c, get_iso_c]
    cases hq : fs q with
    | none =>
      dsimp only
      cases h1 : get_iso_c fs (pre' ++ nm :: rest) with
      | error e =>
        cases h2 : get_iso_c fs (pre' ++ rest) with
        | error e' => rfl
        | ok p2 =>
          have hih := ih
          rw [h1, h2] at hih
          simp [Except.map] at hih
      | ok p1 =>
        cases h2 : get_iso_c fs (pre' ++ rest) with
        | error e' =>
          have hih := ih
          rw [h1, h2] at hih
          simp [Except.map] at hih
        | ok p2 =>
          have hih := ih
          rw [h1, h2] at hih
          obtain ⟨b1, r1⟩ := p1
          obtain ⟨b2, r2⟩ := p2
          simp only [Except.map, Except.ok.injEq] at hih
          simp [Except.map, hih]
    | some bytes =>
      dsimp only
      cases hscan : scanIsoLines (splitLinesPy (decodePy bytes)) with
      | error e => rfl
      | ok b =>
        cases b
        · exact ih
        · rfl

/-- C4: scanning never fails because of an unreadable or undecodable file.
An unopenable file is skipped — the boolean outcome (and any `IndexError`)
over the whole set is exactly that of the set without it, all remaining
files still being processed; it is reported; the unit scanner treats it as
providing and requiring nothing; and byte decoding is lenient — replacing
every non-ascii byte up front changes nothing, so no byte value is ever
fatal. -/
theorem claim_C4_unreadable_not_fatal :
    (∀ (fs : FS) (pre : List String) (nm : String) (rest : List String),
      fs nm = none →
      Except.map Prod.fst (get_iso_c fs (pre ++ nm :: rest)) =
        Except.map Prod.fst (get_iso_c fs (pre ++ rest))) ∧
    (∀ (fs : FS) (nm : String) (rest : List String) (b : Bool)
        (reps : List String),
      fs nm = none → get_iso_c fs (nm :: rest) = .ok (b, reps) →
      reportMsg nm ∈ reps) ∧
    (∀ (fs : FS) (nm : String), fs nm = none → scanUnit fs nm = ([], [])) ∧
    (∀ (fs : FS) (files : List String),
      get_iso_c (fun p => (fs p).map decodePy) files = get_iso_c fs files) := by
  refine ⟨get_iso_c_skip_unreadable, ?_, ?_, get_iso_c_decode_invariant⟩
  · intro fs nm rest b reps h hok
    rw [get_iso_c, h] at hok
    cases hrec : get_iso_c fs rest with
    | error e =>
      rw [hrec] at hok
      exact absurd hok (by simp)
    | ok p =>
      rw [hrec] at hok
      obtain ⟨b', r'⟩ := p
      simp only [Except.ok.injEq, Prod.mk.injEq] at hok
      rw [← hok.2]
      exact List.mem_cons_self _ _
  · intro fs nm h
    unfold scanUnit
    rw [h]

/-- Witness for C4 at concrete inputs: `zz.f90` is unopenable in `exFS2`;
skipping it leaves the outcome unchanged, it is reported, it scans to
nothing, and pre-decoding `exFS1` changes nothing. -/
theorem claim_C4_unreadable_not_fatal_witness :
    Except.map Prod.fst (get_iso_c exFS2 (["a.f90"] ++ "zz.f90" :: [])) =
      Except.map Prod.fst (get_iso_c exFS2 (["a.f90"] ++ [])) ∧
    reportMsg "zz.f90" ∈ ["get_f_nodelist: could not open zz.f90"] ∧
    scanUnit exFS2 "zz.f90" = ([], []) ∧
    get_iso_c (fun p => (exFS1 p).map decodePy) ["a.f90", "b.f90"] =
      get_iso_c exFS1 ["a.f90", "b.f90"] :=
  ⟨claim_C4_unreadable_not_fatal.1 exFS2 ["a.f90"] "zz.f90" [] (by decide),
   claim_C4_unreadable_not_fatal.2.1 exFS2 "zz.f90" [] false
     ["get_f_nodelist: could not open zz.f90"] (by decide) (by rfl),
   claim_C4_unreadable_not_fatal.2.2.1 exFS2 "zz.f90" (by decide),
   claim_C4_unreadable_not_fatal.2.2.2 exFS1 ["a.f90", "b.f90"]⟩

/-! ### Claim C5: the `USE ISO_C_BINDING` detection -/

lemma scanIsoLines_ok_iff :
    ∀ {lines : List (List Nat)} {b : Bool}, scanIsoLines lines = .ok b →
      (b = true ↔ lines.any isoLineB = true) := by
  intro lines
  induction lines with
  | nil =>
    intro b h
    rw [scanIsoLines] at h
    injection h with h'
    subst h'
    simp
  | cons line rest ih =>
    intro b h
    rw [scanIsoLines] at h
    rw [List.any_cons]
    cases htoks : lineToks line with
    | nil =>
      rw [htoks] at h
      dsimp only at h
      have hfalse : isoLineB line = false := by
        unfold isoLineB
        rw [htoks]
      rw [hfalse]
      simpa using ih h
    | cons t0 ts =>
      rw [htoks] at h
      dsimp only at h
      by_cases hU : upperTok t0 = cp "USE"
      · rw [if_pos hU] at h
        cases hts : ts with
        | nil =>
          rw [hts] at h
          exact absurd h (by simp)
        | cons t1 ts' =>
          rw [hts] at h
          dsimp only at h
          by_cases hB : upperTok (commaHead t1) = cp "ISO_C_BINDING"
          · rw [if_pos hB] at h
            injection h with h'
            subst h'
            have htrue : isoLineB line = true := by
              unfold isoLineB
              rw [htoks, hts]
              dsimp only
              simp [beq_iff_eq, hU, hB]
            rw [htrue]
            simp
          · rw [if_neg hB] at h
            have hfalse : isoLineB line = false := by
              unfold isoLineB
              rw [htoks, hts]
              dsimp only
              simp [beq_iff_eq, hB]
            rw [hfalse]
            simpa using ih h
      · rw [if_neg hU] at h
        have hfalse : isoLineB line = false := by
          unfold isoLineB
          rw [htoks]
          cases hts : ts with
          | nil => rfl
          | cons t1 ts' =>
            dsimp only
            simp [beq_iff_eq, hU]
        rw [hfalse]
        simpa using ih h

lemma get_iso_c_ok_iff :
    ∀ {files : List String} {fs : FS} {b : Bool} {reps : List String},
      get_iso_c fs files = .ok (b, reps) →
      (b = true ↔ hasIsoCLine fs files = true) := by
  intro files
  induction files with
  | nil =>
    intro fs b reps h
    rw [get_iso_c] at h
    injection h with h'
    simp only [Prod.mk.injEq] at h'
    obtain ⟨hb, -⟩ := h'
    subst hb
    simp [hasIsoCLine]
  | cons p rest ih =>
    intro fs b reps h
    rw [get_iso_c] at h
    have hfile : hasIsoCLine fs (p :: rest) =
        (isoFileB fs p || hasIsoCLine fs rest) := by
      simp [hasIsoCLine]
    rw [hfile]
    cases hfs : fs p with
    | none =>
      rw [hfs] at h
      dsimp only at h
      have hfileF : isoFileB fs p = false := by
        unfold isoFileB
        rw [hfs]
      rw [hfileF, Bool.false_or]
      cases hrec : get_iso_c fs rest with
      | error e =>
        rw [hrec] at h
        exact absurd h (by simp)
      | ok pr =>
        rw [hrec] at h
        obtain ⟨b', r'⟩ := pr
        dsimp only at h
        injection h with h'
        simp only [Prod.mk.injEq] at h'
        obtain ⟨hb, -⟩ := h'
        subst hb
        exact ih hrec
    | some bytes =>
      rw [hfs] at h
      dsimp only at h
      have hfileEq : isoFileB fs p = (splitLinesPy (decodePy bytes)).any isoLineB := by
        unfold isoFileB
        rw [hfs]
      cases hscan : scanIsoLines (splitLinesPy (decodePy bytes)) with
      | error e =>
        rw [hscan] at h
        exact absurd h (by simp)
      | ok sb =>
        rw [hscan] at h
        have hsiff := scanIsoLines_ok_iff hscan
        cases sb with
        | false =>
          dsimp only at h
          have hany : (splitLinesPy (decodePy bytes)).any isoLineB = false := by
            rcases Bool.eq_false_or_eq_true
                ((splitLinesPy (decodePy bytes)).any isoLineB) with ht | hf
            · exact absurd (hsiff.mpr ht) (by simp)
            · exact hf
          rw [hfileEq, hany, Bool.false_or]
          exact ih h
        | true =>
          dsimp only at h
          injection h with h'
          simp only [Prod.mk.injEq] at h'
          obtain ⟨hb, -⟩ := h'
          subst hb
          rw [hfileEq, hsiff.mp rfl]
          simp

/-- C5 (counterexample): the claimed equivalence "get_iso_c returns `True`
iff some file contains a `USE ISO_C_BINDING` line" fails at `exFS3`: its
single file contains such a line (on its second line), but a preceding
bare `use` line makes `get_iso_c` raise `IndexError` instead of returning
`True`. -/
theorem claim_C5_counterexample :
    ¬ ((∃ reps, get_iso_c exFS3 ["a.f90"] = .ok (true, reps)) ↔
        hasIsoCLine exFS3 ["a.f90"] = true) := by
  intro hiff
  rcases hiff.mpr (by decide) with ⟨reps, hr⟩
  have herr : get_iso_c exFS3 ["a.f90"] = .error () := rfl
  rw [herr] at hr
  exact Except.noConfusion hr

/-- C5 (amended): whenever `get_iso_c` does return a boolean (no bare
`USE` line aborts the scan first), it returns `True` if and only if at
least one file contains a line whose first whitespace-delimited token
equals `USE` case-insensitively and whose named module — the second token
up to the first comma, case-folded — is `ISO_C_BINDING`; an `only`
qualifier list after the module name does not affect the result. -/
theorem claim_C5_iso_detection (fs : FS) (files : List String) (b : Bool)
    (reps : List String) (h : get_iso_c fs files = .ok (b, reps)) :
    b = true ↔ hasIsoCLine fs files = true :=
  get_iso_c_ok_iff h

/-- Witness for the amended C5 at a concrete input: `exFS4` uses
`ISO_C_BINDING` with an `only` qualifier list and the scan returns
`True`. -/
theorem claim_C5_iso_detection_witness :
    true = true ↔ hasIsoCLine exFS4 ["a.f90"] = true :=
  claim_C5_iso_detection exFS4 ["a.f90"] true [] rfl

/-! ### Claim C10: file classification in `get_ordered_srcfiles` -/

lemma suffix_of_suffix_length_le {s1 s2 l : List Nat} (h1 : s1 <:+ l)
    (h2 : s2 <:+ l) (hle : s1.length ≤ s2.length) : s1 <:+ s2 := by
  rw [← List.reverse_prefix] at h1 h2 ⊢
  exact List.prefix_of_prefix_length_le h1 h2 (by simpa)

lemma no_shared_suffix {l s1 s2 : List Nat} (h1 : s1 <:+ l) (h2 : s2 <:+ l)
    (hn1 : ¬ s1 <:+ s2) (hn2 : ¬ s2 <:+ s1) : False := by
  rcases Nat.le_total s1.length s2.length with h | h
  · exact hn1 (suffix_of_suffix_length_le h1 h2 h)
  · exact hn2 (suffix_of_suffix_length_le h2 h1 h)

lemma fortran_not_c {f : String} (hf : isFortranFile f = true) :
    isCFile f = false := by
  by_contra hne
  rw [Bool.not_eq_false] at hne
  simp only [isFortranFile, Bool.or_eq_true, List.isSuffixOf_iff_suffix] at hf
  simp only [isCFile, Bool.or_eq_true, List.isSuffixOf_iff_suffix] at hne
  rcases hf with ((hF | hF) | hF) | hF <;> rcases hne with hc | hc <;>
    exact no_shared_suffix hF hc (by decide) (by decide)

lemma classifySrc_fst_mem (T : List String) (f : String) :
    f ∈ (classifySrc T).1 ↔ f ∈ T ∧ isFortranFile f = true := by
  induction T with
  | nil => simp [classifySrc]
  | cons g rest ih =>
    rw [classifySrc]
    by_cases hg : isFortranFile g = true
    · rw [if_pos hg]
      constructor
      · intro hm
        rcases List.mem_cons.mp hm with rfl | hm2
        · exact ⟨List.mem_cons_self _ _, hg⟩
        · rcases ih.mp hm2 with ⟨hmem, hf⟩
          exact ⟨List.mem_cons_of_mem g hmem, hf⟩
      · rintro ⟨hm, hf⟩
        rcases List.mem_cons.mp hm with rfl | hm2
        · exact List.mem_cons_self f _
        · exact List.mem_cons_of_mem g (ih.mpr ⟨hm2, hf⟩)
    · rw [if_neg hg]
      have hrest : f ∈ (classifySrc rest).1 ↔ f ∈ rest ∧ isFortranFile f = true := ih
      by_cases hc : isCFile g = true
      · rw [if_pos hc]
        dsimp only
        rw [hrest]
        constructor
        · rintro ⟨hm, hf⟩
          exact ⟨List.mem_cons_of_mem g hm, hf⟩
        · rintro ⟨hm, hf⟩
          rcases List.mem_cons.mp hm with rfl | hm2
          · exact absurd hf hg
          · exact ⟨hm2, hf⟩
      · rw [if_neg hc]
        rw [hrest]
        constructor
        · rintro ⟨hm, hf⟩
          exact ⟨List.mem_cons_of_mem g hm, hf⟩
        · rintro ⟨hm, hf⟩
          rcases List.mem_cons.mp hm with rfl | hm2
          · exact absurd hf hg
          · exact ⟨hm2, hf⟩

lemma classifySrc_snd_mem (T : List String) (f : String) :
    f ∈ (classifySrc T).2 ↔ f ∈ T ∧ isCFile f = true := by
  induction T with
  | nil => simp [classifySrc]
  | cons g rest ih =>
    rw [classifySrc]
    by_cases hg : isFortranFile g = true
    · rw [if_pos hg]
      dsimp only
      rw [ih]
      constructor
      · rintro ⟨hm, hf⟩
        exact ⟨List.mem_cons_of_mem g hm, hf⟩
      · rintro ⟨hm, hf⟩
        rcases List.mem_cons.mp hm with rfl | hm2
        · exact absurd hf (by simp [fortran_not_c hg])
        · exact ⟨hm2, hf⟩
    · rw [if_neg hg]
      by_cases hc : isCFile g = true
      · rw [if_pos hc]
        dsimp only
        constructor
        · intro hm
          rcases List.mem_cons.mp hm with rfl | hm2
          · exact ⟨List.mem_cons_self _ _, hc⟩
          · rcases ih.mp hm2 with ⟨hmem, hf⟩
            exact ⟨List.mem_cons_of_mem g hmem, hf⟩
        · rintro ⟨hm, hf⟩
          rcases List.mem_cons.mp hm with rfl | hm2
          · exact List.mem_cons_self f _
          · exact List.mem_cons_of_mem g (ih.mpr ⟨hm2, hf⟩)
      · rw [if_neg hc]
        rw [ih]
        constructor
        · rintro ⟨hm, hf⟩
          exact ⟨List.mem_cons_of_mem g hm, hf⟩
        · rintro ⟨hm, hf⟩
          rcases List.mem_cons.mp hm with rfl | hm2
          · exact absurd hf hc
          · exact ⟨hm2, hf⟩

lemma order_source_files_mem {fs : FS} {paths : List String} {x : String}
    (hx : x ∈ order_source_files fs paths) : x ∈ paths := by
  rcases List.mem_map.mp hx with ⟨i, hi, rfl⟩
  have hi' : i ∈ orderLoopF (fortranDeps fs paths)
      (List.range paths.length).length (List.range paths.length) := hi
  have hiR : i ∈ List.range paths.length := (orderLoopF_mem (le_refl _) i).mp hi'
  have hilt := List.mem_range.mp hiR
  rw [List.getD_eq_getElem?_getD, List.getElem?_eq_getElem hilt]
  exact List.getElem_mem hilt

lemma get_ordered_srcfiles_mem {fs : FS} {srcdir : String}
    {walk : List (String × String)} {inc : Bool} {x : String}
    (hx : x ∈ get_ordered_srcfiles fs srcdir walk inc) :
    x ∈ (classifySrc (walkTemplist srcdir inc walk)).1 ∨
      x ∈ (classifySrc (walkTemplist srcdir inc walk)).2 := by
  rw [get_ordered_srcfiles_eq_append] at hx
  rcases List.mem_append.mp hx with h | h
  · exact Or.inl (order_source_files_mem h)
  · exact Or.inr h

lemma walkTemplist_mem_false (srcdir : String) (walk : List (String × String))
    (f : String) :
    f ∈ walkTemplist srcdir false walk ↔
      ∃ pr ∈ walk, pr.1 = srcdir ∧ f = joinPath pr.1 pr.2 := by
  induction walk with
  | nil => simp [walkTemplist]
  | cons pr rest ih =>
    obtain ⟨d, nm⟩ := pr
    rw [walkTemplist]
    by_cases hd : d = srcdir
    · subst hd
      rw [if_neg (by simp)]
      simp only [List.mem_cons, List.mem_cons]
      constructor
      · rintro (rfl | hm)
        · exact ⟨(d, nm), Or.inl rfl, rfl, rfl⟩
        · rcases ih.mp hm with ⟨pr', hpr', hsd, hf⟩
          exact ⟨pr', Or.inr hpr', hsd, hf⟩
      · rintro ⟨pr', hpr' | hpr', hsd, hf⟩
        · subst hpr'
          exact Or.inl hf
        · exact Or.inr (ih.mpr ⟨pr', hpr', hsd, hf⟩)
    · rw [if_pos (by simp [hd])]
      rw [ih]
      constructor
      · rintro ⟨pr', hpr', hsd, hf⟩
        exact ⟨pr', List.mem_cons_of_mem _ hpr', hsd, hf⟩
      · rintro ⟨pr', hpr', hsd, hf⟩
        rcases List.mem_cons.mp hpr' with rfl | hm
        · exact absurd hsd hd
        · exact ⟨pr', hm, hsd, hf⟩

/-- C10: `get_ordered_srcfiles` classifies files by case-insensitive
extension — the fortran bucket holds exactly the collected files ending in
`.f`, `.f90`, `.for`, `.fpp` and the C bucket exactly those ending in
`.c`, `.cpp`; a file with any other extension is silently excluded from
the output; and with `include_subdir` false the collected files are
exactly the walk entries lying directly in the top-level source
directory. -/
theorem claim_C10_classification (fs : FS) (srcdir : String)
    (walk : List (String × String)) (include_subdir : Bool) (f : String) :
    (f ∈ (classifySrc (walkTemplist srcdir include_subdir walk)).1 ↔
      f ∈ walkTemplist srcdir include_subdir walk ∧ isFortranFile f = true) ∧
    (f ∈ (classifySrc (walkTemplist srcdir include_subdir walk)).2 ↔
      f ∈ walkTemplist srcdir include_subdir walk ∧ isCFile f = true) ∧
    (isFortranFile f = false → isCFile f = false →
      ¬ f ∈ get_ordered_srcfiles fs srcdir walk include_subdir) ∧
    (f ∈ walkTemplist srcdir false walk ↔
      ∃ pr ∈ walk, pr.1 = srcdir ∧ f = joinPath pr.1 pr.2) := by
  refine ⟨classifySrc_fst_mem _ f, classifySrc_snd_mem _ f, ?_,
    walkTemplist_mem_false srcdir walk f⟩
  intro hnf hnc hx
  rcases get_ordered_srcfiles_mem hx with h | h
  · have := (classifySrc_fst_mem _ f).mp h
    rw [hnf] at this
    exact Bool.noConfusion this.2
  · have := (classifySrc_snd_mem _ f).mp h
    rw [hnc] at this
    exact Bool.noConfusion this.2

/-- Witness for C10 at a concrete input: `readme.txt` has neither a
fortran nor a C extension and is excluded from the ordered output. -/
theorem claim_C10_classification_witness :
    ¬ "./readme.txt" ∈ get_ordered_srcfiles exFS1 "."
      [(".", "A.F90"), (".", "x.cpp"), (".", "readme.txt")] false :=
  (claim_C10_classification exFS1 "."
    [(".", "A.F90"), (".", "x.cpp"), (".", "readme.txt")] false
    "./readme.txt").2.2.1 (by decide) (by decide)
